import Mathlib

/-!
Verification of `cmd2/table_creator.py` (word-wrapping table renderer).

The Python code operates on strings that may contain ANSI style escape
sequences, characters of display width 0/1/2, and unprintable control
characters.  We embed such a string shallowly as a `List Tok`:

* `Tok.chr c w`  — a printable visible character `c` whose display width,
  as reported by the external `wcwidth` library, is `w` (0, 1 or 2);
* `Tok.ctrl c`   — an unprintable character (`wcwidth` reports the
  sentinel `-1`), e.g. `'\n'` or `'\t'`;
* `Tok.style s`  — one ANSI style escape sequence (the characters `s`);
  it contributes zero display width.  The Python code locates these with
  `utils.get_styles_in_text` and skips over them; in the token model a
  style sequence is a single token, whose character length is `s.length`.

A multi-line output string is represented structurally as a
`List (List Tok)`: the segments between the `'\n'` characters written to
the buffer, in order (so the actual string is the `"\n"`-intercalation of
the segments).  `str_lines` below recovers Python's `str.splitlines` view
of such a buffer.
-/

namespace Cmd2Table

inductive Tok : Type where
  | chr (c : Char) (w : Nat)
  | ctrl (c : Char)
  | style (s : List Char)
deriving DecidableEq, Repr

/-- Modelled from the spec: the width scanner's per-character display
width — 0/1/2 for printable characters, the sentinel `-1` for
unprintable characters (`wcwidth` of the external wcwidth library).
A style token never reaches `wcwidth` in the code (style sequences are
recognized and skipped first); its leading ESC is a control character,
so we report the sentinel for it as well. -/
def Tok.wcw : Tok → Int
  | .chr _ w => (w : Int)
  | .ctrl _ => -1
  | .style _ => -1

def Tok.isCtrl : Tok → Bool
  | .ctrl _ => true
  | _ => false

def Tok.isStyle : Tok → Bool
  | .style _ => true
  | _ => false

/-- Character length of a token inside the original Python string:
a style escape sequence spans `s.length` characters. -/
def Tok.clen : Tok → Nat
  | .chr _ _ => 1
  | .ctrl _ => 1
  | .style s => s.length

/-- Character length of a token list (Python `len` of the string). -/
def clen (ts : List Tok) : Nat := (ts.map Tok.clen).sum

/-- Sum of the printable display widths (style tokens count zero). -/
def sumW : List Tok → Nat
  | [] => 0
  | .chr _ w :: ts => w + sumW ts
  | .ctrl _ :: ts => sumW ts
  | .style _ :: ts => sumW ts

/-- Modelled from the spec: `ansi.style_aware_wcswidth` — total display
width of a string ignoring style escape sequences entirely; if any
character is unprintable the total is reported as the sentinel `-1`. -/
def wcswidth (ts : List Tok) : Int :=
  if ts.any Tok.isCtrl then -1 else (sumW ts : Int)

/-- `constants.HORIZONTAL_ELLIPSIS`: a single-width ellipsis character. -/
def ellipsisTok : Tok := .chr '…' 1

def spaceTok : Tok := .chr ' ' 1

/-- The literal `"EXTRA"` appended by the code to force truncation
(five ordinary width-1 characters). -/
def extraToks : List Tok :=
  [.chr 'E' 1, .chr 'X' 1, .chr 'T' 1, .chr 'R' 1, .chr 'A' 1]

/-- Modelled from the spec: the cutting loop of `utils.truncate_line`
(the function lives in `cmd2/utils.py`, which is not part of the given
sources).  Keeps leading characters while their cumulative width stays
within `budget`, copying style sequences verbatim; at the first visible
character that does not fit, the ellipsis is appended and the rest of
the line is dropped.  The `ctrl` case is unreachable from
`truncate_line` (lines containing an unprintable character are returned
unchanged there, because their reported width is the sentinel `-1`). -/
def trunc_go (budget : Nat) (used : Nat) : List Tok → List Tok
  | [] => [ellipsisTok]
  | .style s :: rest => .style s :: trunc_go budget used rest
  | .chr c w :: rest =>
      if used + w ≤ budget then .chr c w :: trunc_go budget (used + w) rest
      else [ellipsisTok]
  | .ctrl _ :: _ => [ellipsisTok]

/-- Modelled from the spec: `utils.truncate_line` — if the line's
display width exceeds `max_width`, the visible text is cut to leave room
for exactly one single-width truncation marker appended at the end;
otherwise the line is returned unchanged. -/
def truncate_line (line : List Tok) (max_width : Nat) : List Tok :=
  if wcswidth line ≤ (max_width : Int) then line
  else trunc_go (max_width - 1) 0 line

/-- `max_lines` may be the float `INFINITY` in the Python code; we model
it as `Option Nat` with `none` for `INFINITY`. -/
abbrev MaxLines := Option Nat

/-- `total_lines == max_lines` (never true for `INFINITY`). -/
def mlEq (n : Nat) : MaxLines → Bool
  | none => false
  | some k => n == k

/-- `total_lines < max_lines` (always true for `INFINITY`). -/
def mlLt (n : Nat) : MaxLines → Bool
  | none => true
  | some k => n < k

/-- `total_lines <= max_lines`, used only in specifications. -/
def mlLe (n : Nat) : MaxLines → Prop
  | none => True
  | some k => n ≤ k

/-- `max_lines - total_lines + 1` as passed to `_wrap_long_word`
(exact in Python's arithmetic whenever `total_lines ≤ max_lines`,
which the invariants below establish at the call site). -/
def mlSub (ml : MaxLines) (total : Nat) : MaxLines :=
  ml.map fun k => k - total + 1

/-- The result of `_wrap_long_word`: the Python tuple
`(wrapped text, lines used, display width of last line)`, with the
wrapped multi-line text represented as its completed lines plus the
final line (the full text is `lines ++ [cur]` joined by `'\n'`). -/
structure WlwRes : Type where
  lines : List (List Tok)
  cur : List Tok
  used : Nat
  curW : Int
deriving DecidableEq, Repr

/-- Final lines of `TableCreator._wrap_long_word` once the last
permitted line has been reached (lines 111–122 of the source): if this
is not the last word of the whole text but the remaining part of the
word would exactly fill the line, `"EXTRA"` is appended so that
`truncate_line` places an ellipsis; the truncated remainder is written
onto the current (always empty at this point) line. -/
def wlw_trunc (max_width : Nat) (is_last_word : Bool)
    (lines : List (List Tok)) (cur : List Tok) (total : Nat)
    (remaining_word : List Tok) : WlwRes :=
  let rem := if ¬ is_last_word ∧ wcswidth remaining_word = (max_width : Int)
             then remaining_word ++ extraToks else remaining_word
  let tl := truncate_line rem max_width
  ⟨lines, cur ++ tl, total, wcswidth tl⟩

/-- The character loop of `TableCreator._wrap_long_word` (source lines
109–156).  State: completed lines, current line, `total_lines`,
`cur_line_width`.  The source's `continue` after starting a new line
re-processes the same character on the fresh line; since the top-of-loop
`total_lines == max_lines` check then fires when the new line is the
last one, that re-entry is inlined here (on a fresh line the character,
whose width is at most `max_width` after the wide-character replacement,
always fits, given the function's `max_width ≥ 1` contract). -/
def wlw_go (max_width : Nat) (max_lines : MaxLines) (is_last_word : Bool) :
    List Tok → List (List Tok) → List Tok → Nat → Int → WlwRes
  | [], lines, cur, total, curW => ⟨lines, cur, total, curW⟩
  | t :: rest, lines, cur, total, curW =>
    if mlEq total max_lines then
      wlw_trunc max_width is_last_word lines cur total (t :: rest)
    else
      match t with
      | .style s => wlw_go max_width max_lines is_last_word rest lines (cur ++ [.style s]) total curW
      | t =>
        let p : Tok × Int :=
          if (max_width : Int) < t.wcw then (ellipsisTok, 1) else (t, t.wcw)
        if (max_width : Int) < curW + p.2 then
          if mlLt total max_lines then
            if mlEq (total + 1) max_lines then
              wlw_trunc max_width is_last_word (lines ++ [cur]) [] (total + 1) (t :: rest)
            else
              wlw_go max_width max_lines is_last_word rest (lines ++ [cur]) [p.1] (total + 1) p.2
          else
            ⟨lines, cur ++ [ellipsisTok], total, curW + 1⟩
        else
          wlw_go max_width max_lines is_last_word rest lines (cur ++ [p.1]) total (curW + p.2)

/-- `TableCreator._wrap_long_word`: wrap a long word character by
character.  Returns (wrapped lines, lines used, display width of the
last line). -/
def wrap_long_word (word : List Tok) (max_width : Nat) (max_lines : MaxLines)
    (is_last_word : Bool) : WlwRes :=
  wlw_go max_width max_lines is_last_word word [] [] 1 0

/-- The mutable state of `_wrap_text`'s output: the buffer
(completed lines plus the line currently being built), `total_lines`
and `cur_line_width`. -/
structure WrapSt : Type where
  lines : List (List Tok)
  cur : List Tok
  total : Nat
  curW : Int
deriving DecidableEq, Repr

/-- Writing `'\n'` to the buffer; `cur_line_width` is reset wherever
the source resets it (and at the two places where the source instead
overwrites it right after, resetting first is equivalent). -/
def WrapSt.newline (st : WrapSt) : WrapSt :=
  ⟨st.lines ++ [st.cur], [], st.total + 1, 0⟩

/-- Writing the multi-line result of `_wrap_long_word` into the outer
buffer at the current position (`wrapped_buf.write(wrapped_word)`
followed by `total_lines += lines_used - 1`, with `cur_line_width`
taken from the returned tuple). -/
def write_wrapped (st : WrapSt) (r : WlwRes) : WrapSt :=
  match r.lines with
  | [] => ⟨st.lines, st.cur ++ r.cur, st.total + (r.used - 1), r.curW⟩
  | l0 :: ls => ⟨st.lines ++ (st.cur ++ l0) :: ls, r.cur, st.total + (r.used - 1), r.curW⟩

/-- Source lines 211–240 of `add_word`: the word is not wrapped across
multiple lines.  Decide whether to prepend a separating space or start
a new line, then write the word, truncating it (possibly with the
`"EXTRA"` forcing trick) when the last permitted line is being filled. -/
def add_word_rest (max_width : Nat) (max_lines : MaxLines) (is_last_word : Bool)
    (word : List Tok) (ww : Int) (st : WrapSt) : WrapSt :=
  let remaining : Int := (max_width : Int) - st.curW
  let p : List Tok × Int × Bool :=
    if 0 < st.curW ∧ 0 < ww then
      if ww < remaining ∨ mlEq st.total max_lines then (spaceTok :: word, ww + 1, false)
      else (word, ww, true)
    else (word, ww, false)
  if p.2.2 then
    let st1 := st.newline
    { st1 with cur := p.1, curW := p.2.1 }
  else if remaining < p.2.1 then
    { st with cur := st.cur ++ truncate_line p.1 remaining.toNat, curW := st.curW + remaining }
  else if ¬ is_last_word ∧ mlEq st.total max_lines ∧ p.2.1 = remaining then
    { st with cur := st.cur ++ truncate_line (p.1 ++ extraToks) remaining.toNat,
              curW := st.curW + p.2.1 }
  else
    { st with cur := st.cur ++ p.1, curW := st.curW + p.2.1 }

/-- The inner function `add_word` of `_wrap_text` (source lines
178–240).  `is_last_word` is the value of the closure `is_last_word()`
at the time of the call (it reads variables `add_word` never writes, so
its two uses inside one call agree). -/
def add_word (max_width : Nat) (max_lines : MaxLines) (is_last_word : Bool)
    (word : List Tok) (st : WrapSt) : WrapSt :=
  let ww : Int := wcswidth word
  if (max_width : Int) < ww then
    if 0 < st.curW then
      if mlLt st.total max_lines then
        let st1 := st.newline
        write_wrapped st1 (wrap_long_word word max_width (mlSub max_lines st1.total) is_last_word)
      else
        add_word_rest max_width max_lines is_last_word word ww st
    else
      write_wrapped st (wrap_long_word word max_width (mlSub max_lines st.total) is_last_word)
  else
    add_word_rest max_width max_lines is_last_word word ww st

/-- Is this token the character `SPACE`?  (The source compares the raw
character; a style sequence is never reached by this comparison.) -/
def Tok.isSpace : Tok → Bool
  | .chr c _ => c = ' '
  | .ctrl c => c = ' '
  | .style _ => false

/-- The character loop of `_wrap_text` over one data line (source lines
268–301).  State: the output state, the current word buffer and the
character index `char_index` (counted in characters of the original
string, so a style sequence advances it by its character length —
this is what the closure `is_last_word()` compares against
`len(data_line) - 1`).  Returns the state, the final word buffer and
the final character index. -/
def line_go (max_width : Nat) (max_lines : MaxLines) (is_last_dl : Bool) (line_len : Nat) :
    List Tok → Nat → List Tok → WrapSt → WrapSt × List Tok × Nat
  | [], ci, wbuf, st => (st, wbuf, ci)
  | t :: rest, ci, wbuf, st =>
    if mlEq st.total max_lines ∧ st.curW = (max_width : Int) then (st, wbuf, ci)
    else
      match t with
      | .style s => line_go max_width max_lines is_last_dl line_len rest (ci + s.length) (wbuf ++ [.style s]) st
      | t =>
        let ci1 := ci + 1
        if t.isSpace then
          if wbuf ≠ [] then
            line_go max_width max_lines is_last_dl line_len rest ci1 []
              (add_word max_width max_lines (is_last_dl ∧ ci1 = line_len - 1) wbuf st)
          else
            let w := wcswidth [t]
            let st1 := if (max_width : Int) < w + st.curW then st.newline else st
            line_go max_width max_lines is_last_dl line_len rest ci1 []
              { st1 with cur := st1.cur ++ [t], curW := st1.curW + w }
        else
          line_go max_width max_lines is_last_dl line_len rest ci1 (wbuf ++ [t]) st

/-- Python `str.splitlines` restricted to `'\n'` as the line-break
character (the only line break the table code itself produces; other
control characters are left in place). -/
def split_lines : List Tok → List (List Tok)
  | [] => []
  | .ctrl c :: rest =>
      if c = '\n' then [] :: split_lines rest
      else match split_lines rest with
        | [] => [[.ctrl c]]
        | l :: ls => (.ctrl c :: l) :: ls
  | t :: rest => match split_lines rest with
      | [] => [[t]]
      | l :: ls => (t :: l) :: ls

/-- Processing of one data line of `_wrap_text` (the body of the loop
at source lines 253–312, after `total_lines += 1` and the `'\n'` write):
run the character loop, then add the final buffered word if any, with
`is_last_word()` evaluated at the loop-exit character index. -/
def wt_step (max_width : Nat) (max_lines : MaxLines) (is_last_dl : Bool)
    (dl : List Tok) (st : WrapSt) : WrapSt :=
  let r := line_go max_width max_lines is_last_dl (clen dl) dl 0 [] st
  if r.2.1 ≠ [] then
    add_word max_width max_lines (is_last_dl ∧ r.2.2 = clen dl - 1) r.2.1 r.1
  else r.1

/-- The data-line loop of `_wrap_text` (source lines 253–312): process
the current data line on a fresh `total_lines` increment; if the line
budget is exhausted afterwards, append an ellipsis when a later data
line exists and there is room, and stop; otherwise write `'\n'` and
continue with the next data line. -/
def wt_go (max_width : Nat) (max_lines : MaxLines) :
    List Tok → List (List Tok) → WrapSt → WrapSt
  | dl, rest, st =>
    let st1 := { st with total := st.total + 1 }
    let st2 := wt_step max_width max_lines (rest = []) dl st1
    if mlEq st2.total max_lines then
      if rest ≠ [] ∧ st2.curW < (max_width : Int) then
        { st2 with cur := st2.cur ++ [ellipsisTok], curW := st2.curW + 1 }
      else st2
    else
      match rest with
      | [] => st2
      | dl2 :: rest2 =>
        wt_go max_width max_lines dl2 rest2 ⟨st2.lines ++ [st2.cur], [], st2.total, 0⟩

/-- `TableCreator._wrap_text`: wrap text into lines of display width at
most `max_width`, using word-based wrapping, at most `max_lines` lines.
The result is the written buffer as a list of `'\n'`-separated segments
(the returned string is their `"\n"`-intercalation); for empty input
nothing is written, which in this representation is the single empty
segment. -/
def wrap_text (text : List Tok) (max_width : Nat) (max_lines : MaxLines) :
    List (List Tok) :=
  match split_lines text with
  | [] => [[]]
  | dl :: rest =>
    let st := wt_go max_width max_lines dl rest ⟨[], [], 0, 0⟩
    st.lines ++ [st.cur]

/-- Python `str.splitlines` applied to the written buffer: a final
empty segment corresponds to the string ending in `'\n'`, which
`splitlines` does not count as an extra line. -/
def str_lines (b : List (List Tok)) : List (List Tok) :=
  if b.getLast? = some [] then b.dropLast else b

/-- Convenience: a plain ASCII string as width-1 printable tokens
(`wcwidth` reports 1 for printable ASCII). -/
def plain (s : String) : List Tok := s.data.map (fun c => Tok.chr c 1)

inductive HorizontalAlignment : Type where
  | left
  | center
  | right
deriving DecidableEq, Repr

inductive VerticalAlignment : Type where
  | top
  | middle
  | bottom
deriving DecidableEq, Repr

/-- Table column configuration (the `Column` class).  `max_data_lines`
defaults to `constants.INFINITY`, modelled as `none`. -/
structure Column : Type where
  header : List Tok
  width : Nat
  header_horiz_align : HorizontalAlignment := .left
  header_vert_align : VerticalAlignment := .bottom
  data_horiz_align : HorizontalAlignment := .left
  data_vert_align : VerticalAlignment := .top
  max_data_lines : MaxLines := none
deriving DecidableEq, Repr

/-- The maximum of a list of `Int`s, seeded with its head (Python's
`max` over a non-empty list; 0 for the empty list, which the code never
produces). -/
def listMaxI : List Int → Int
  | [] => 0
  | x :: xs => xs.foldl max x

/-- `Column.__init__`'s default width: the width of the widest line in
the header, or 1 if the header has no width (source lines 52–56).
(The line widths are `style_aware_wcswidth` values, hence `Int`; the
appended 1 makes the maximum at least 1, so `toNat` is exact.) -/
def default_width (header : List Tok) : Nat :=
  (listMaxI (((split_lines header).map wcswidth) ++ [1])).toNat

/-- The `TableCreator` class configuration. -/
structure TableCreator : Type where
  cols : List Column
  tab_width : Nat := 4
deriving DecidableEq, Repr

/-- `str.replace('\t', SPACE * tab_width)` on a token list. -/
def tab_expand (tw : Nat) (ts : List Tok) : List Tok :=
  ts.flatMap fun t => if t = .ctrl '\t' then List.replicate tw spaceTok else [t]

/-- `fill_char.replace('\t', SPACE)`. -/
def tab_to_space (ts : List Tok) : List Tok :=
  ts.map fun t => if t = .ctrl '\t' then spaceTok else t

/-- `n` copies of the fill string (`fill_char * n` where the fill is one
visible character, possibly wrapped in style sequences). -/
def fill_rep (n : Nat) (fill : List Tok) : List Tok :=
  (List.replicate n fill).flatten

/-- Modelled from the spec: the external text-padding primitive
(`utils.align_text` on a single line).  Pads the line with copies of the
fill character up to `width`: LEFT pads right, RIGHT pads left, CENTER
splits the padding with the remainder biased to the right.  The style
state restoration that the real helper also performs adds only
zero-width style sequences, and is omitted. -/
def align_line (line : List Tok) (fill : List Tok) (width : Nat)
    (al : HorizontalAlignment) : List Tok :=
  let padTotal : Nat := ((width : Int) - wcswidth line).toNat
  match al with
  | .left => line ++ fill_rep padTotal fill
  | .right => fill_rep padTotal fill ++ line
  | .center => fill_rep (padTotal / 2) fill ++ line ++ fill_rep (padTotal - padTotal / 2) fill

/-- Modelled from the spec: `utils.align_text` — align every line of the
(already wrapped) text; an empty text is treated as a single empty
line. -/
def align_text (b : List (List Tok)) (fill : List Tok) (width : Nat)
    (al : HorizontalAlignment) : List (List Tok) :=
  let ls := str_lines b
  (if ls = [] then [[]] else ls).map fun l => align_line l fill width al

/-- `TableCreator._generate_cell_lines`: stringify (the data is already
a token list here), expand tabs, wrap with the column's width and
`max_data_lines` (the source passes `col.max_data_lines` for header and
data cells alike, line 333), then align horizontally.  Returns the cell
lines and the display width of the cell (the width of its widest
line). -/
def generate_cell_lines (tc : TableCreator) (data : List Tok) (is_header : Bool)
    (col : Column) (fill_char : List Tok) : List (List Tok) × Int :=
  let horiz := if is_header then col.header_horiz_align else col.data_horiz_align
  let data_str := tab_expand tc.tab_width data
  let wrapped := wrap_text data_str col.width col.max_data_lines
  let lines := align_text wrapped fill_char col.width horiz
  (lines, listMaxI (lines.map wcswidth))

/-- The `appendleft` loop of the vertical filler (source lines
431–432). -/
def push_top (padLine : List Tok) : Nat → List (List Tok) → List (List Tok)
  | 0, ls => ls
  | n + 1, ls => push_top padLine n (padLine :: ls)

/-- The `append` loop of the vertical filler (source lines 433–434). -/
def push_bottom (padLine : List Tok) : Nat → List (List Tok) → List (List Tok)
  | 0, ls => ls
  | n + 1, ls => push_bottom padLine n (ls ++ [padLine])

/-- Vertical alignment of one cell (source lines 414–434): when the
cell is shorter than the row, add full-width filler lines above and
below according to the vertical alignment. -/
def pad_cell (va : VerticalAlignment) (padLine : List Tok) (total_lines : Nat)
    (ls : List (List Tok)) : List (List Tok) :=
  let diff := total_lines - ls.length
  if diff = 0 then ls
  else
    let tt : Nat × Nat :=
      match va with
      | .top => (0, diff)
      | .middle => (diff / 2, diff - diff / 2)
      | .bottom => (diff, 0)
    push_bottom padLine tt.2 (push_top padLine tt.1 ls)

/-- A Python `ValueError` or `TypeError` raised by `_generate_row`. -/
inductive TableError : Type where
  | valueError (msg : String)
  | typeError (msg : String)
deriving DecidableEq, Repr

/-- `ansi.strip_style` (modelled from the spec: the external helper
that strips all style sequences from a string), followed by `len`. -/
def strip_style (ts : List Tok) : List Char :=
  ts.flatMap fun t =>
    match t with
    | .chr c _ => [c]
    | .ctrl c => [c]
    | .style _ => []

/-- `utils.align_left(EMPTY, fill_char=fill_char, width=cell.width)`:
the full-width vertical filler line. -/
def padding_line (fill : List Tok) (cellW : Int) : List Tok :=
  align_line [] fill cellW.toNat .left

/-- `TableCreator._generate_row`: validate, render every cell, pad
cells vertically, and emit the row line by line.  The result is the
list of row lines (the returned string is their `"\n"`-intercalation),
or the raised error. -/
def generate_row (tc : TableCreator) (data : List (List Tok)) (is_header : Bool)
    (fill_char pre_line inter_cell post_line : List Tok) :
    Except TableError (List (List Tok)) :=
  if tc.cols.length ≠ data.length then
    .error (.valueError "Length of cols must match length of data")
  else
    let fill_char := tab_to_space fill_char
    let pre_line := tab_expand tc.tab_width pre_line
    let inter_cell := tab_expand tc.tab_width inter_cell
    let post_line := tab_expand tc.tab_width post_line
    if (strip_style fill_char).length ≠ 1 then
      .error (.typeError "Fill character must be exactly one character long")
    else if wcswidth fill_char = -1 then
      .error (.valueError "fill_char contains an unprintable character")
    else if wcswidth pre_line = -1 then
      .error (.valueError "pre_line contains an unprintable character")
    else if wcswidth inter_cell = -1 then
      .error (.valueError "inter_cell contains an unprintable character")
    else if wcswidth post_line = -1 then
      .error (.valueError "post_line contains an unprintable character")
    else
      let cells := (tc.cols.zip data).map fun p =>
        (p.1, generate_cell_lines tc p.2 is_header p.1 fill_char)
      let total_lines := (cells.map fun c => c.2.1.length).foldl max 0
      let padded := cells.map fun c =>
        let va := if is_header then c.1.header_vert_align else c.1.data_vert_align
        pad_cell va (padding_line fill_char c.2.2) total_lines c.2.1
      .ok ((List.range total_lines).map fun i =>
        pre_line ++ List.intercalate inter_cell (padded.map fun ls => ls.getD i []) ++ post_line)

/-- `TableCreator.generate_header_row` (source lines 455–471): render
the header row from the column headers.  It takes no divider argument;
the parameters and defaults are exactly those of the source. -/
def generate_header_row (tc : TableCreator)
    (fill_char : List Tok := [spaceTok]) (pre_line : List Tok := [])
    (inter_cell : List Tok := [spaceTok, spaceTok]) (post_line : List Tok := []) :
    Except TableError (List (List Tok)) :=
  generate_row tc (tc.cols.map Column.header) true fill_char pre_line inter_cell post_line

/-- `TableCreator.generate_data_row` (source lines 473–490). -/
def generate_data_row (tc : TableCreator) (data : List (List Tok))
    (fill_char : List Tok := [spaceTok]) (pre_line : List Tok := [])
    (inter_cell : List Tok := [spaceTok, spaceTok]) (post_line : List Tok := []) :
    Except TableError (List (List Tok)) :=
  generate_row tc data false fill_char pre_line inter_cell post_line

/-- A valid `max_lines` argument: at least 1 when finite. -/
def okML (ml : MaxLines) : Prop := ∀ k, ml = some k → 1 ≤ k

/-- A token list without control characters. -/
def noCtrl (ts : List Tok) : Prop := ∀ t ∈ ts, t.isCtrl = false

/-- A token list without horizontal tabs. -/
abbrev noTab (ts : List Tok) : Prop := Tok.ctrl '\t' ∉ ts

/-- Well-formedness of a single input token, reflecting facts about real
Python strings that the token model cannot enforce by construction: the
space character has display width 1 (`wcwidth(' ') = 1`), a printable
token is not a line break, the only control character appearing in cell
text is `'\n'` (others never arise from the table code's own callers,
and `str.splitlines` would split on them as well), and style sequences
contain no line break. -/
def WfTok : Tok → Prop
  | .chr c w => c ≠ '\n' ∧ (c = ' ' → w = 1)
  | .ctrl c => c = '\n'
  | .style s => '\n' ∉ s

/-- Well-formed input text for the wrapper. -/
def WfText (ts : List Tok) : Prop := ∀ t ∈ ts, WfTok t

/-- Example table: two columns with headers `"Column 1"` and
`"Column 2"` at default widths. -/
def tbl_two_headers : TableCreator :=
  { cols := [ { header := plain "Column 1", width := default_width (plain "Column 1") },
              { header := plain "Column 2", width := default_width (plain "Column 2") } ] }

/-- Example table: one column of width 10. -/
def tbl_w10 : TableCreator := { cols := [ { header := plain "Col 1", width := 10 } ] }

/-- Example table: one column of width 1. -/
def tbl_w1 : TableCreator := { cols := [ { header := plain "Col 1", width := 1 } ] }

/-- Example table: one column whose header `"one\ntwo"` has more lines
than its `max_data_lines` of 1. -/
def tbl_hdr_trunc : TableCreator :=
  { cols := [ { header := plain "one" ++ [Tok.ctrl '\n'] ++ plain "two",
                width := 3, max_data_lines := some 1 } ] }

/-- Example table: two width-1 columns, the first with MIDDLE vertical
alignment of data, the second with TOP (its default). -/
def tbl_vert : TableCreator :=
  { cols := [ { header := plain "a", width := 1, data_vert_align := .middle },
              { header := plain "b", width := 1 } ] }

/-- Example table as in the repository's `test_column_alignment`: four
width-10 columns exercising every horizontal and vertical alignment. -/
def tbl_alignment : TableCreator :=
  { cols := [ { header := plain "Col 1", width := 10,
                header_horiz_align := .left, header_vert_align := .top,
                data_horiz_align := .left, data_vert_align := .top },
              { header := plain "Col 2", width := 10,
                header_horiz_align := .center, header_vert_align := .middle,
                data_horiz_align := .center, data_vert_align := .middle },
              { header := plain "Col 3", width := 10,
                header_horiz_align := .right, header_vert_align := .bottom,
                data_horiz_align := .right, data_vert_align := .bottom },
              { header := plain "Three" ++ [Tok.ctrl '\n'] ++ plain "line" ++
                            [Tok.ctrl '\n'] ++ plain "header", width := 10 } ] }

/-- Example table as in `test_wrap_long_word_max_data_lines`: two
width-10 columns with `max_data_lines = 2`. -/
def tbl_max2 : TableCreator :=
  { cols := [ { header := plain "Col 1", width := 10, max_data_lines := some 2 },
              { header := plain "Col 2", width := 10, max_data_lines := some 2 } ] }

deriving instance DecidableEq for Except

/-- The invariant of `_wrap_text`'s mutable state that yields C1: every
completed line fits in `max_width`; the current line is free of control
characters, its real display width is bounded by the bookkeeping
`cur_line_width`, which itself stays between 0 and `max_width`; the
buffer holds exactly `total_lines` lines; and `total_lines` never
exceeds `max_lines`. -/
structure WrapInv (max_width : Nat) (max_lines : MaxLines) (st : WrapSt) : Prop where
  linesOk : ∀ l ∈ st.lines, wcswidth l ≤ (max_width : Int)
  curNC : noCtrl st.cur
  curLe : wcswidth st.cur ≤ st.curW
  curNN : 0 ≤ st.curW
  curWle : st.curW ≤ (max_width : Int)
  countEq : st.lines.length + 1 = st.total
  totalLe : mlLe st.total max_lines

/-- The corresponding postcondition of `_wrap_long_word`. -/
structure WlwPost (max_width : Nat) (max_lines : MaxLines) (r : WlwRes) : Prop where
  linesOk : ∀ l ∈ r.lines, wcswidth l ≤ (max_width : Int)
  curNC : noCtrl r.cur
  curLe : wcswidth r.cur ≤ r.curW
  curNN : 0 ≤ r.curW
  curWle : r.curW ≤ (max_width : Int)
  countEq : r.lines.length + 1 = r.used
  usedLe : mlLe r.used max_lines

/-! ### Validation of the embedding against the repository's test suite -/

/-- Replicates `test_column_alignment`'s header assertion. -/
theorem validates_test_column_alignment_header :
    generate_header_row tbl_alignment =
      .ok [plain "Col 1                               Three     ",
           plain "              Col 2                 line      ",
           plain "                             Col 3  header    "] := by decide

/-- Replicates `test_column_alignment`'s data-row assertion. -/
theorem validates_test_column_alignment_data :
    generate_data_row tbl_alignment
        [plain "Val 1", plain "Val 2", plain "Val 3",
         plain "Three" ++ [Tok.ctrl '\n'] ++ plain "line" ++ [Tok.ctrl '\n'] ++ plain "data"] =
      .ok [plain "Val 1                               Three     ",
           plain "              Val 2                 line      ",
           plain "                             Val 3  data      "] := by decide

/-- Replicates `test_wrap_long_word_max_data_lines`. -/
theorem validates_test_wrap_long_word_max_data_lines :
    generate_data_row tbl_max2
        [plain "LongerThan10FitsLast" ++ [Tok.ctrl '\n'] ++ plain "More lines",
         plain "LongerThan10RunsOverLast"] =
      .ok [plain "LongerThan  LongerThan",
           plain "10FitsLas" ++ [ellipsisTok] ++ plain "  10RunsOve" ++ [ellipsisTok]] := by
  decide

/-- Replicates `test_wrap_long_char_wider_than_max_width`. -/
theorem validates_test_wrap_long_char_wider_than_max_width :
    generate_data_row tbl_w1 [[Tok.chr '深' 2]] = .ok [[ellipsisTok]] := by decide

/-! ### The claims -/

/-- C2 (code bug): the text `"ab cd"` exactly fits on one line of width
5, so wrapping it with `max_width = 5`, `max_lines = 1` should, per the
claim's "content exactly fits with nothing remaining" clause, add no
ellipsis; the code instead emits `"ab c…"`, dropping the final `d`.
The cause is the inner closure `is_last_word()` (source line 176),
which compares `char_index` against `len(data_line) - 1`; at the final
`add_word` call of a line (source line 305) `char_index` equals
`len(data_line)`, so the closure is never true for the genuinely last
word, contradicting its own doc string. -/
theorem wrap_text_exact_fit_spurious_ellipsis :
    str_lines (wrap_text (plain "ab cd") 5 (some 1)) = [plain "ab c" ++ [ellipsisTok]] := by
  decide

/-- C3 (counterexample): `generate_header_row` has no divider argument,
and for the two-column table with headers `"Column 1"`/`"Column 2"` at
default widths it returns exactly the single line
`"Column 1  Column 2"` — not that line followed by a divider line of
`'*'` repeated to the header's display width (18), as the claim
asserts for a supplied divider `'*'`. -/
theorem generate_header_row_no_divider_counterexample :
    generate_header_row tbl_two_headers = .ok [plain "Column 1  Column 2"] ∧
    generate_header_row tbl_two_headers ≠
      .ok [plain "Column 1  Column 2", List.replicate 18 (Tok.chr '*' 1)] := by
  constructor
  · decide
  · decide

/-- C3 (amended): the header-row operation takes no divider argument;
its output is just the rendered header block, e.g. the single line
`"Column 1  Column 2"` for a two-column table with headers
`"Column 1"`/`"Column 2"` at default widths and default decoration. -/
theorem generate_header_row_two_columns :
    generate_header_row tbl_two_headers = .ok [plain "Column 1  Column 2"] := by decide

/-- C4 (code bug): `_generate_cell_lines` passes `col.max_data_lines`
to `_wrap_text` for header cells as well (source line 333), so a header
with more lines than `max_data_lines` is truncated with an ellipsis:
for a column with header `"one\ntwo"`, width 3 and `max_data_lines = 1`,
the rendered header row is the single line `"on…"` instead of the full
two-line header the claim requires. -/
theorem generate_header_row_truncates_header :
    generate_header_row tbl_hdr_trunc = .ok [plain "on" ++ [ellipsisTok]] := by decide

/-- C7: a data-row render call whose value-list length differs from the
column count is rejected with the `ValueError` of source line 376, for
every possible data and decoration — in particular no cell is rendered
and no partial row string is produced, since the result does not depend
on the contents of `data` at all. -/
theorem generate_row_arity_mismatch (tc : TableCreator) (data : List (List Tok))
    (is_header : Bool) (fill_char pre_line inter_cell post_line : List Tok)
    (h : tc.cols.length ≠ data.length) :
    generate_row tc data is_header fill_char pre_line inter_cell post_line =
      .error (.valueError "Length of cols must match length of data") := by
  simp only [generate_row, if_pos h]

/-- C7 witness: arity 3 against the 2-column table. -/
theorem generate_row_arity_mismatch_witness :
    tbl_two_headers.cols.length ≠ 3 ∧
    generate_data_row tbl_two_headers [plain "Data 1", plain "Data 2", plain "Extra Column"] =
      .error (.valueError "Length of cols must match length of data") :=
  ⟨by decide,
   generate_row_arity_mismatch tbl_two_headers
     [plain "Data 1", plain "Data 2", plain "Extra Column"] false _ _ _ _ (by decide)⟩

theorem tab_to_space_noTab {ts : List Tok} (h : noTab ts) : tab_to_space ts = ts := by
  induction ts with
  | nil => rfl
  | cons t ts ih =>
    have ht : t ≠ Tok.ctrl '\t' := fun he => h (he ▸ List.mem_cons_self t ts)
    have hts : noTab ts := fun hm => h (List.mem_cons_of_mem t hm)
    simp [tab_to_space, ht, ih hts] at *
    exact ih hts

theorem tab_expand_noTab {tw : Nat} {ts : List Tok} (h : noTab ts) : tab_expand tw ts = ts := by
  induction ts with
  | nil => rfl
  | cons t ts ih =>
    have ht : t ≠ Tok.ctrl '\t' := fun he => h (he ▸ List.mem_cons_self t ts)
    have hts : noTab ts := fun hm => h (List.mem_cons_of_mem t hm)
    simp [tab_expand, ht] at ih ⊢
    exact ih hts

theorem noTab_tab_to_space (ts : List Tok) : noTab (tab_to_space ts) := by
  intro hm
  rcases List.mem_map.mp hm with ⟨t, _, ht⟩
  by_cases h : t = Tok.ctrl '\t'
  · rw [if_pos h] at ht
    exact absurd ht (by decide)
  · rw [if_neg h] at ht
    exact h ht

theorem noTab_tab_expand (tw : Nat) (ts : List Tok) : noTab (tab_expand tw ts) := by
  intro hm
  rcases List.mem_flatMap.mp hm with ⟨t, _, ht⟩
  by_cases h : t = Tok.ctrl '\t'
  · rw [if_pos h] at ht
    exact absurd (List.eq_of_mem_replicate ht) (by decide)
  · rw [if_neg h] at ht
    exact h ((List.mem_singleton.mp ht).symm)

theorem tab_to_space_idem (ts : List Tok) : tab_to_space (tab_to_space ts) = tab_to_space ts :=
  tab_to_space_noTab (noTab_tab_to_space ts)

theorem tab_expand_idem (tw : Nat) (ts : List Tok) :
    tab_expand tw (tab_expand tw ts) = tab_expand tw ts :=
  tab_expand_noTab (noTab_tab_expand tw ts)

/-- C10: `_generate_row` replaces every horizontal tab in `pre_line`,
`inter_cell` and `post_line` by `tab_width` spaces and a tab `fill_char`
by exactly one space before the fill-character and unprintable-character
validations run (source lines 378–382), so the render call behaves
exactly as if it had been given the replaced strings; consequently a
tab fill character is accepted and fills the cells with spaces (here:
the 2-column table renders `"a"`, `"b"` padded with spaces) rather than
being rejected as unprintable. -/
theorem tabs_replaced_before_validation :
    (∀ (tc : TableCreator) (data : List (List Tok)) (is_header : Bool)
       (fill_char pre_line inter_cell post_line : List Tok),
       generate_row tc data is_header fill_char pre_line inter_cell post_line =
         generate_row tc data is_header (tab_to_space fill_char)
           (tab_expand tc.tab_width pre_line) (tab_expand tc.tab_width inter_cell)
           (tab_expand tc.tab_width post_line)) ∧
    generate_data_row tbl_two_headers [plain "a", plain "b"] [Tok.ctrl '\t'] =
      generate_data_row tbl_two_headers [plain "a", plain "b"] [spaceTok] ∧
    generate_data_row tbl_two_headers [plain "a", plain "b"] [Tok.ctrl '\t'] =
      .ok [plain "a         b       "] := by
  refine ⟨fun tc data is_header fill_char pre_line inter_cell post_line => ?_, by decide, by decide⟩
  simp only [generate_row, tab_to_space_idem, tab_expand_idem]

theorem push_top_eq (p : List Tok) (n : Nat) (ls : List (List Tok)) :
    push_top p n ls = List.replicate n p ++ ls := by
  induction n generalizing ls with
  | zero => rfl
  | succ n ih => simp [push_top, ih, List.replicate_succ', List.append_assoc]

theorem push_bottom_eq (p : List Tok) (n : Nat) (ls : List (List Tok)) :
    push_bottom p n ls = ls ++ List.replicate n p := by
  induction n generalizing ls with
  | zero => simp [push_bottom]
  | succ n ih => simp [push_bottom, ih, List.replicate_succ, List.append_assoc]

/-- C9: the vertical filler of `_generate_row` (source lines 414–434)
places, for a cell `diff` lines shorter than the row, all `diff` filler
lines after the content for TOP, all before it for BOTTOM, and for
MIDDLE `diff / 2` above and `diff - diff / 2` below (the extra line of
an odd deficit goes to the bottom); the filler line is the fill
character repeated to the cell's display width
(`align_left('', fill_char, width)`).  The concrete row exercises the
MIDDLE bias: a 1-line cell in a 4-line row gets 1 filler line above and
2 below. -/
theorem vertical_padding_placement :
    (∀ (p : List Tok) (total : Nat) (ls : List (List Tok)),
       pad_cell .top p total ls = ls ++ List.replicate (total - ls.length) p ∧
       pad_cell .bottom p total ls = List.replicate (total - ls.length) p ++ ls ∧
       pad_cell .middle p total ls =
         List.replicate ((total - ls.length) / 2) p ++ ls ++
           List.replicate ((total - ls.length) - (total - ls.length) / 2) p) ∧
    (∀ (fill : List Tok) (w : Nat), padding_line fill (w : Int) = fill_rep w fill) ∧
    generate_data_row tbl_vert
        [plain "a",
         plain "p" ++ [Tok.ctrl '\n'] ++ plain "q" ++ [Tok.ctrl '\n'] ++ plain "r" ++
           [Tok.ctrl '\n'] ++ plain "s"] =
      .ok [plain "   p", plain "a  q", plain "   r", plain "   s"] := by
  refine ⟨fun p total ls => ?_, fun fill w => ?_, by decide⟩
  · by_cases h : total - ls.length = 0 <;>
      simp [pad_cell, h, push_top_eq, push_bottom_eq, List.append_assoc]
  · simp [padding_line, align_line, wcswidth, sumW, Tok.isCtrl]

theorem wcswidth_chr (c : Char) (w : Nat) : wcswidth [Tok.chr c w] = (w : Int) := by
  simp [wcswidth, Tok.isCtrl, sumW]

theorem truncate_line_single_wide (c : Char) (w max_width : Nat)
    (hw : max_width < w) : truncate_line [Tok.chr c w] max_width = [ellipsisTok] := by
  unfold truncate_line
  rw [if_neg, trunc_go, if_neg (by omega)]
  rw [wcswidth_chr]
  exact fun h => absurd (by exact_mod_cast h) (by omega)

/-- C6: a visible character whose own display width exceeds `max_width`
is replaced by the single-width ellipsis by `_wrap_long_word` (source
lines 130–137) instead of producing an overflowing line: wrapping a
single such character yields exactly the ellipsis line, for every valid
`max_width` and `max_lines` (when `max_lines = 1` the same result
arises through `truncate_line`); and the one-column table of width 1
renders the width-2 datum `"深"` as exactly the ellipsis character. -/
theorem wide_char_replaced_by_ellipsis :
    (∀ (c : Char) (w max_width : Nat) (ml : MaxLines) (ilw : Bool),
       max_width < w → 1 ≤ max_width → okML ml →
       wrap_long_word [Tok.chr c w] max_width ml ilw = ⟨[], [ellipsisTok], 1, 1⟩) ∧
    generate_data_row tbl_w1 [[Tok.chr '深' 2]] = .ok [[ellipsisTok]] := by
  refine ⟨fun c w max_width ml ilw hw h1 hml => ?_, by decide⟩
  have hwc : (max_width : Int) < (Tok.chr c w).wcw := by
    simp only [Tok.wcw]
    exact_mod_cast hw
  have hwne : ¬ (wcswidth [Tok.chr c w] = (max_width : Int)) := by
    rw [wcswidth_chr]
    intro h2
    have hwm : w = max_width := by exact_mod_cast h2
    omega
  have h0 : max_width ≠ 0 := by omega
  have hell : wcswidth [ellipsisTok] = 1 := by decide
  have htail : mlEq 1 ml = false →
      wlw_go max_width ml ilw [Tok.chr c w] [] [] 1 0 = ⟨[], [ellipsisTok], 1, 1⟩ := by
    intro hne
    simp [wlw_go, hne, hwc, h0]
  cases ml with
  | none =>
    unfold wrap_long_word
    exact htail rfl
  | some k =>
    by_cases hk : k = 1
    · subst hk
      unfold wrap_long_word
      rw [wlw_go] <;> try (exact fun s hs => Tok.noConfusion hs)
      rw [if_pos (by decide)]
      unfold wlw_trunc
      have hcond : ¬ ((¬ ilw = true) ∧ wcswidth [Tok.chr c w] = (max_width : Int)) :=
        fun h => hwne h.2
      simp only [if_neg hcond, truncate_line_single_wide c w max_width hw,
        hell, List.nil_append]
    · have hne : mlEq 1 (some k) = false := by
        simp only [mlEq, beq_eq_false_iff_ne, ne_eq]
        omega
      unfold wrap_long_word
      exact htail hne

/-- C5: a word wider than `max_width` never continues a line that
already has content: `add_word` (source lines 186–209) first ends the
current line unchanged and the word's character-by-character wrapping
(`_wrap_long_word`) begins on a fresh line, consuming
`max_lines - total_lines + 1` further lines.  The first concrete case
is the end-to-end example (one column of width 10, sole word
`"LongerThan10"` rendered as `"LongerThan"` then `"10"` padded to
width 10); the second shows a style sequence inside a long word copied
verbatim at zero display width during the character wrap. -/
theorem long_word_starts_on_new_line :
    (∀ (max_width : Nat) (ml : MaxLines) (ilw : Bool) (word : List Tok) (st : WrapSt),
       (max_width : Int) < wcswidth word → 0 < st.curW → mlLt st.total ml = true →
       (add_word max_width ml ilw word st).lines =
         st.lines ++ st.cur ::
           (wrap_long_word word max_width (mlSub ml (st.total + 1)) ilw).lines ∧
       (add_word max_width ml ilw word st).total =
         st.total + 1 + ((wrap_long_word word max_width (mlSub ml (st.total + 1)) ilw).used - 1)) ∧
    generate_data_row tbl_w10 [plain "LongerThan10"] =
      .ok [plain "LongerThan", plain "10        "] ∧
    wrap_long_word ([Tok.style ['x']] ++ plain "abc") 2 none true =
      ⟨[[Tok.style ['x']] ++ plain "ab"], plain "c", 2, 1⟩ := by
  refine ⟨fun max_width ml ilw word st hbig hcur hlt => ?_, by decide, by decide⟩
  unfold add_word
  rw [if_pos hbig, if_pos hcur, if_pos hlt]
  rcases hr1 : (wrap_long_word word max_width (mlSub ml (st.total + 1)) ilw).lines
    with _ | ⟨l0, ls⟩
  · constructor
    · simp [write_wrapped, WrapSt.newline, hr1]
    · simp [write_wrapped, WrapSt.newline, hr1]
  · constructor
    · simp [write_wrapped, WrapSt.newline, hr1]
    · simp [write_wrapped, WrapSt.newline, hr1]

/-- C5 witness: a width-4 word against `max_width = 3` on a line that
already holds a width-1 `"x"`. -/
theorem long_word_starts_on_new_line_witness :
    (add_word 3 (some 5) false (plain "abcd") ⟨[], plain "x", 1, 1⟩).lines =
      [] ++ plain "x" :: (wrap_long_word (plain "abcd") 3 (mlSub (some 5) (1 + 1)) false).lines :=
  (long_word_starts_on_new_line.1 3 (some 5) false (plain "abcd") ⟨[], plain "x", 1, 1⟩
    (by decide) (by decide) (by decide)).1

/-- C6 witness: the width-2 character `'深'` in a width-1 budget. -/
theorem wide_char_replaced_by_ellipsis_witness :
    wrap_long_word [Tok.chr '深' 2] 1 (some 1) false = ⟨[], [ellipsisTok], 1, 1⟩ :=
  wide_char_replaced_by_ellipsis.1 '深' 2 1 (some 1) false (by decide) (by decide)
    (fun k hk => by injection hk with h; omega)

theorem noCtrl_nil : noCtrl ([] : List Tok) := by
  intro t ht
  exact absurd ht (List.not_mem_nil t)

theorem noCtrl_cons {t : Tok} {ts : List Tok} :
    noCtrl (t :: ts) ↔ t.isCtrl = false ∧ noCtrl ts := by
  constructor
  · exact fun h => ⟨h t (List.mem_cons_self t ts), fun x hx => h x (List.mem_cons_of_mem t hx)⟩
  · rintro ⟨h1, h2⟩ x hx
    rcases List.mem_cons.mp hx with rfl | hx
    · exact h1
    · exact h2 x hx

theorem noCtrl_append {a b : List Tok} :
    noCtrl (a ++ b) ↔ noCtrl a ∧ noCtrl b := by
  constructor
  · exact fun h => ⟨fun x hx => h x (List.mem_append_left b hx),
                    fun x hx => h x (List.mem_append_right a hx)⟩
  · rintro ⟨h1, h2⟩ x hx
    rcases List.mem_append.mp hx with hx | hx
    · exact h1 x hx
    · exact h2 x hx

theorem noCtrl_iff_any {ts : List Tok} : noCtrl ts ↔ ts.any Tok.isCtrl = false := by
  simp [noCtrl, List.any_eq_false]

theorem sumW_append (a b : List Tok) : sumW (a ++ b) = sumW a + sumW b := by
  induction a with
  | nil => simp [sumW]
  | cons t a ih => cases t <;> simp [sumW, ih, Nat.add_assoc]

theorem wcswidth_noCtrl {ts : List Tok} (h : noCtrl ts) : wcswidth ts = (sumW ts : Int) := by
  rw [wcswidth, if_neg]
  rw [noCtrl_iff_any] at h
  simp [h]

theorem wcswidth_nonneg {ts : List Tok} (h : noCtrl ts) : 0 ≤ wcswidth ts := by
  rw [wcswidth_noCtrl h]
  exact Int.natCast_nonneg _

theorem wcswidth_append_noCtrl {a b : List Tok} (ha : noCtrl a) (hb : noCtrl b) :
    wcswidth (a ++ b) = wcswidth a + wcswidth b := by
  rw [wcswidth_noCtrl ha, wcswidth_noCtrl hb,
    wcswidth_noCtrl (noCtrl_append.mpr ⟨ha, hb⟩), sumW_append]
  push_cast
  ring

theorem wcswidth_append_le {a b : List Tok} {M : Int} (ha : noCtrl a)
    (ha0 : wcswidth a ≤ 0) (hM : 0 ≤ M) (hb : wcswidth b ≤ M) :
    wcswidth (a ++ b) ≤ M := by
  by_cases hbc : b.any Tok.isCtrl = true
  · rw [wcswidth, if_pos (by simp [List.any_append, hbc])]
    omega
  · have hbnc : noCtrl b := noCtrl_iff_any.mpr (by simpa using hbc)
    rw [wcswidth_append_noCtrl ha hbnc]
    have := wcswidth_nonneg ha
    omega

theorem noCtrl_singleton {t : Tok} (h : t.isCtrl = false) : noCtrl [t] :=
  noCtrl_cons.mpr ⟨h, noCtrl_nil⟩

theorem noCtrl_ell : noCtrl [ellipsisTok] := noCtrl_singleton rfl

theorem noCtrl_extraToks : noCtrl extraToks := by
  intro t ht
  simp only [extraToks, List.mem_cons, List.not_mem_nil, or_false] at ht
  rcases ht with rfl | rfl | rfl | rfl | rfl <;> rfl

theorem noCtrl_trunc_go (budget used : Nat) (ts : List Tok) :
    noCtrl (trunc_go budget used ts) := by
  induction ts generalizing used with
  | nil => exact noCtrl_ell
  | cons t rest ih =>
    cases t with
    | chr c w =>
      rw [trunc_go]
      by_cases hfit : used + w ≤ budget
      · rw [if_pos hfit]
        exact noCtrl_cons.mpr ⟨rfl, ih (used + w)⟩
      · rw [if_neg hfit]
        exact noCtrl_ell
    | ctrl c =>
      rw [trunc_go]
      exact noCtrl_ell
    | style s =>
      rw [trunc_go]
      exact noCtrl_cons.mpr ⟨rfl, ih used⟩

theorem trunc_go_sumW (budget : Nat) (ts : List Tok) :
    ∀ used : Nat, used ≤ budget → used + sumW (trunc_go budget used ts) ≤ budget + 1 := by
  induction ts with
  | nil =>
    intro used hu
    rw [trunc_go]
    simp [sumW, ellipsisTok]
    omega
  | cons t rest ih =>
    intro used hu
    cases t with
    | chr c w =>
      rw [trunc_go]
      by_cases hfit : used + w ≤ budget
      · rw [if_pos hfit]
        have := ih (used + w) hfit
        simp only [sumW]
        omega
      · rw [if_neg hfit]
        simp [sumW, ellipsisTok]
        omega
    | ctrl c =>
      rw [trunc_go]
      simp [sumW, ellipsisTok]
      omega
    | style s =>
      rw [trunc_go]
      simp only [sumW]
      exact ih used hu

theorem truncate_line_le (line : List Tok) (m : Nat) (h1 : 1 ≤ m) :
    wcswidth (truncate_line line m) ≤ (m : Int) := by
  unfold truncate_line
  by_cases h : wcswidth line ≤ (m : Int)
  · rw [if_pos h]
    exact h
  · rw [if_neg h]
    rw [wcswidth_noCtrl (noCtrl_trunc_go _ _ _)]
    have h2 := trunc_go_sumW (m - 1) line 0 (Nat.zero_le _)
    have h3 : sumW (trunc_go (m - 1) 0 line) ≤ m := by omega
    exact_mod_cast h3

theorem truncate_line_noCtrl {line : List Tok} (m : Nat) (h : noCtrl line) :
    noCtrl (truncate_line line m) := by
  unfold truncate_line
  split
  · exact h
  · exact noCtrl_trunc_go _ _ _

theorem wcswidth_ell : wcswidth [ellipsisTok] = 1 := by decide

theorem wcswidth_style (s : List Char) : wcswidth [Tok.style s] = 0 := by
  simp [wcswidth, Tok.isCtrl, sumW]

theorem mlLe_of_lt {n : Nat} {ml : MaxLines} (h : mlLt n ml = true) : mlLe (n + 1) ml := by
  cases ml with
  | none => trivial
  | some k =>
    simp only [mlLt, decide_eq_true_eq] at h
    simp only [mlLe]
    omega

theorem mlLe_succ_of_ne {n : Nat} {ml : MaxLines} (h : mlLe n ml)
    (hne : ¬ mlEq n ml = true) : mlLe (n + 1) ml := by
  cases ml with
  | none => trivial
  | some k =>
    simp only [mlEq, beq_iff_eq] at hne
    simp only [mlLe] at h ⊢
    omega

theorem mlLt_of_le_of_ne {n : Nat} {ml : MaxLines} (h : mlLe n ml)
    (hne : ¬ mlEq n ml = true) : mlLt n ml = true := by
  cases ml with
  | none => rfl
  | some k =>
    simp only [mlEq, beq_iff_eq] at hne
    simp only [mlLe] at h
    simp only [mlLt, decide_eq_true_eq]
    omega

theorem linesOk_append {max_width : Nat} {lines : List (List Tok)} {cur : List Tok}
    {curW : Int} (hlines : ∀ l ∈ lines, wcswidth l ≤ (max_width : Int))
    (hcle : wcswidth cur ≤ curW) (hcwle : curW ≤ (max_width : Int)) :
    ∀ l ∈ lines ++ [cur], wcswidth l ≤ (max_width : Int) := by
  intro l hl
  rcases List.mem_append.mp hl with hl | hl
  · exact hlines l hl
  · rw [List.mem_singleton.mp hl]
    omega

theorem wlw_trunc_post (max_width : Nat) (ml : MaxLines) (ilw : Bool)
    (lines : List (List Tok)) (total : Nat) (remWord : List Tok)
    (h1 : 1 ≤ max_width)
    (hlines : ∀ l ∈ lines, wcswidth l ≤ (max_width : Int))
    (hrem : noCtrl remWord)
    (hcount : lines.length + 1 = total) (htot : mlLe total ml) :
    WlwPost max_width ml (wlw_trunc max_width ilw lines [] total remWord) := by
  have hrnc : noCtrl (if (¬ ilw = true) ∧ wcswidth remWord = (max_width : Int)
      then remWord ++ extraToks else remWord) := by
    split
    · exact noCtrl_append.mpr ⟨hrem, noCtrl_extraToks⟩
    · exact hrem
  have htl := truncate_line_noCtrl max_width hrnc
  have hle := truncate_line_le (if (¬ ilw = true) ∧ wcswidth remWord = (max_width : Int)
      then remWord ++ extraToks else remWord) max_width h1
  exact ⟨hlines, htl, le_refl _, wcswidth_nonneg htl, hle, hcount, htot⟩

theorem wlw_go_nil (max_width : Nat) (ml : MaxLines) (ilw : Bool)
    (lines : List (List Tok)) (cur : List Tok) (total : Nat) (curW : Int) :
    wlw_go max_width ml ilw [] lines cur total curW = ⟨lines, cur, total, curW⟩ := rfl

theorem wlw_go_cons_style (max_width : Nat) (ml : MaxLines) (ilw : Bool)
    (s : List Char) (rest : List Tok) (lines : List (List Tok)) (cur : List Tok)
    (total : Nat) (curW : Int) :
    wlw_go max_width ml ilw (Tok.style s :: rest) lines cur total curW =
      if mlEq total ml then wlw_trunc max_width ilw lines cur total (Tok.style s :: rest)
      else wlw_go max_width ml ilw rest lines (cur ++ [Tok.style s]) total curW := rfl

theorem wlw_go_cons_chr (max_width : Nat) (ml : MaxLines) (ilw : Bool)
    (c : Char) (w : Nat) (rest : List Tok) (lines : List (List Tok)) (cur : List Tok)
    (total : Nat) (curW : Int) :
    wlw_go max_width ml ilw (Tok.chr c w :: rest) lines cur total curW =
      if mlEq total ml then wlw_trunc max_width ilw lines cur total (Tok.chr c w :: rest)
      else
        let p : Tok × Int :=
          if (max_width : Int) < (Tok.chr c w).wcw then (ellipsisTok, 1)
          else (Tok.chr c w, (Tok.chr c w).wcw)
        if (max_width : Int) < curW + p.2 then
          if mlLt total ml then
            if mlEq (total + 1) ml then
              wlw_trunc max_width ilw (lines ++ [cur]) [] (total + 1) (Tok.chr c w :: rest)
            else
              wlw_go max_width ml ilw rest (lines ++ [cur]) [p.1] (total + 1) p.2
          else ⟨lines, cur ++ [ellipsisTok], total, curW + 1⟩
        else wlw_go max_width ml ilw rest lines (cur ++ [p.1]) total (curW + p.2) := rfl

theorem wlw_go_inv (max_width : Nat) (ml : MaxLines) (ilw : Bool) (h1 : 1 ≤ max_width) :
    ∀ (rest : List Tok) (lines : List (List Tok)) (cur : List Tok) (total : Nat) (curW : Int),
    noCtrl rest →
    (∀ l ∈ lines, wcswidth l ≤ (max_width : Int)) →
    noCtrl cur → wcswidth cur ≤ curW → 0 ≤ curW → curW ≤ (max_width : Int) →
    lines.length + 1 = total → mlLe total ml →
    (mlEq total ml = true → cur = [] ∧ curW = 0) →
    WlwPost max_width ml (wlw_go max_width ml ilw rest lines cur total curW) := by
  intro rest
  induction rest with
  | nil =>
    intro lines cur total curW hrest hlines hcnc hcle hcnn hcwle hcount htot hml
    rw [wlw_go_nil]
    exact ⟨hlines, hcnc, hcle, hcnn, hcwle, hcount, htot⟩
  | cons t rest ih =>
    intro lines cur total curW hrest hlines hcnc hcle hcnn hcwle hcount htot hml
    have hrest' : noCtrl rest := (noCtrl_cons.mp hrest).2
    have htnc : t.isCtrl = false := (noCtrl_cons.mp hrest).1
    cases t with
    | ctrl c => simp [Tok.isCtrl] at htnc
    | style s =>
      by_cases heq : mlEq total ml = true
      · obtain ⟨hc0, hw0⟩ := hml heq
        subst hc0
        subst hw0
        rw [wlw_go_cons_style, if_pos heq]
        exact wlw_trunc_post _ _ _ _ _ _ h1 hlines hrest hcount htot
      · rw [wlw_go_cons_style, if_neg heq]
        refine ih lines (cur ++ [Tok.style s]) total curW hrest' hlines
          (noCtrl_append.mpr ⟨hcnc, noCtrl_singleton (t := Tok.style s) rfl⟩) ?_
          hcnn hcwle hcount htot (fun h => absurd h heq)
        rw [wcswidth_append_noCtrl hcnc (noCtrl_singleton (t := Tok.style s) rfl),
          wcswidth_style]
        omega
    | chr c w =>
      by_cases heq : mlEq total ml = true
      · obtain ⟨hc0, hw0⟩ := hml heq
        subst hc0
        subst hw0
        rw [wlw_go_cons_chr, if_pos heq]
        exact wlw_trunc_post _ _ _ _ _ _ h1 hlines hrest hcount htot
      · rw [wlw_go_cons_chr, if_neg heq]
        have hstep : ∀ (tp : Tok) (wp : Int), tp.isCtrl = false →
            wcswidth [tp] ≤ wp → 0 ≤ wp → wp ≤ (max_width : Int) →
            WlwPost max_width ml
              (if (max_width : Int) < curW + wp then
                 if mlLt total ml then
                   if mlEq (total + 1) ml then
                     wlw_trunc max_width ilw (lines ++ [cur]) [] (total + 1)
                       (Tok.chr c w :: rest)
                   else wlw_go max_width ml ilw rest (lines ++ [cur]) [tp] (total + 1) wp
                 else ⟨lines, cur ++ [ellipsisTok], total, curW + 1⟩
               else wlw_go max_width ml ilw rest lines (cur ++ [tp]) total (curW + wp)) := by
          intro tp wp htpnc htple htpnn htpwle
          by_cases hfit : (max_width : Int) < curW + wp
          · rw [if_pos hfit]
            have hlt : mlLt total ml = true := mlLt_of_le_of_ne htot heq
            rw [if_pos hlt]
            by_cases heq2 : mlEq (total + 1) ml = true
            · rw [if_pos heq2]
              exact wlw_trunc_post _ _ _ _ _ _ h1 (linesOk_append hlines hcle hcwle)
                hrest (by simp [List.length_append]; omega) (mlLe_of_lt hlt)
            · rw [if_neg heq2]
              exact ih (lines ++ [cur]) [tp] (total + 1) wp hrest'
                (linesOk_append hlines hcle hcwle) (noCtrl_singleton htpnc)
                htple htpnn htpwle (by simp [List.length_append]; omega)
                (mlLe_of_lt hlt) (fun h => absurd h heq2)
          · rw [if_neg hfit]
            refine ih lines (cur ++ [tp]) total (curW + wp) hrest' hlines
              (noCtrl_append.mpr ⟨hcnc, noCtrl_singleton htpnc⟩) ?_ (by omega)
              (by omega) hcount htot (fun h => absurd h heq)
            rw [wcswidth_append_noCtrl hcnc (noCtrl_singleton htpnc)]
            omega
        by_cases hpw : (max_width : Int) < (Tok.chr c w).wcw
        · rw [if_pos hpw]
          exact hstep ellipsisTok 1 rfl (by rw [wcswidth_ell]) (by omega)
            (by exact_mod_cast h1)
        · rw [if_neg hpw]
          refine hstep (Tok.chr c w) ((Tok.chr c w).wcw) rfl ?_ ?_ (le_of_not_lt hpw)
          · rw [wcswidth_chr]
            simp [Tok.wcw]
          · simp only [Tok.wcw]
            exact Int.natCast_nonneg _

theorem wcswidth_nil : wcswidth ([] : List Tok) = 0 := by decide

theorem wcswidth_space : wcswidth [spaceTok] = 1 := by decide

theorem mlEq_of_le_not_lt {n : Nat} {ml : MaxLines} (h : mlLe n ml)
    (hnlt : ¬ mlLt n ml = true) : mlEq n ml = true := by
  cases ml with
  | none => exact absurd rfl hnlt
  | some k =>
    simp only [mlLt, decide_eq_true_eq] at hnlt
    simp only [mlLe] at h
    simp only [mlEq, beq_iff_eq]
    omega

theorem mlLe_one_mlSub (ml : MaxLines) (n : Nat) : mlLe 1 (mlSub ml n) := by
  cases ml with
  | none => trivial
  | some k =>
    simp only [mlSub, Option.map, mlLe]
    omega

theorem write_wrapped_nil (st : WrapSt) (cur : List Tok) (used : Nat) (curW : Int) :
    write_wrapped st ⟨[], cur, used, curW⟩ =
      ⟨st.lines, st.cur ++ cur, st.total + (used - 1), curW⟩ := rfl

theorem write_wrapped_cons (st : WrapSt) (l0 : List Tok) (ls : List (List Tok))
    (cur : List Tok) (used : Nat) (curW : Int) :
    write_wrapped st ⟨l0 :: ls, cur, used, curW⟩ =
      ⟨st.lines ++ (st.cur ++ l0) :: ls, cur, st.total + (used - 1), curW⟩ := rfl

theorem write_wrapped_inv (max_width : Nat) (ml : MaxLines) (st : WrapSt) (r : WlwRes)
    (hlines : ∀ l ∈ st.lines, wcswidth l ≤ (max_width : Int))
    (hcnc : noCtrl st.cur) (hc0 : wcswidth st.cur ≤ 0)
    (hcount : st.lines.length + 1 = st.total)
    (htot : mlLe st.total ml)
    (hpost : WlwPost max_width (mlSub ml st.total) r) :
    WrapInv max_width ml (write_wrapped st r) := by
  obtain ⟨rl, rc, ru, rw⟩ := r
  obtain ⟨plines, pcnc, pcle, pcnn, pcwle, pcount, pused⟩ := hpost
  have plines' : ∀ l ∈ rl, wcswidth l ≤ (max_width : Int) := plines
  have pcnc' : noCtrl rc := pcnc
  have pcle' : wcswidth rc ≤ rw := pcle
  have pcnn' : (0 : Int) ≤ rw := pcnn
  have pcwle' : rw ≤ (max_width : Int) := pcwle
  have pcount' : rl.length + 1 = ru := pcount
  have pused' : mlLe ru (mlSub ml st.total) := pused
  have husedLe : mlLe (st.total + (ru - 1)) ml := by
    cases ml with
    | none => trivial
    | some k =>
      simp only [mlSub, Option.map, mlLe] at pused' htot ⊢
      omega
  cases rl with
  | nil =>
    rw [write_wrapped_nil]
    simp only [List.length_nil] at pcount'
    refine ⟨hlines, noCtrl_append.mpr ⟨hcnc, pcnc'⟩, ?_, pcnn', pcwle', ?_, husedLe⟩
    · show wcswidth (st.cur ++ rc) ≤ rw
      rw [wcswidth_append_noCtrl hcnc pcnc']
      omega
    · show st.lines.length + 1 = st.total + (ru - 1)
      omega
  | cons l0 ls =>
    rw [write_wrapped_cons]
    simp only [List.length_cons] at pcount'
    refine ⟨?_, pcnc', pcle', pcnn', pcwle', ?_, husedLe⟩
    · intro l hl
      rcases List.mem_append.mp hl with hl | hl
      · exact hlines l hl
      · rcases List.mem_cons.mp hl with rfl | hl
        · exact wcswidth_append_le hcnc hc0 (Int.natCast_nonneg _)
            (plines' l0 (List.mem_cons_self _ _))
        · exact plines' l (List.mem_cons_of_mem _ hl)
    · show (st.lines ++ (st.cur ++ l0) :: ls).length + 1 = st.total + (ru - 1)
      simp only [List.length_append, List.length_cons]
      omega

theorem wrapinv_extend {max_width : Nat} {ml : MaxLines} {st : WrapSt}
    (hinv : WrapInv max_width ml st) (pc : List Tok) (d : Int)
    (hnc : noCtrl pc) (hle : wcswidth pc ≤ d) (hd : 0 ≤ d)
    (hsum : st.curW + d ≤ (max_width : Int)) :
    WrapInv max_width ml ⟨st.lines, st.cur ++ pc, st.total, st.curW + d⟩ := by
  have hnn := hinv.curNN
  have hcle := hinv.curLe
  refine ⟨hinv.linesOk, noCtrl_append.mpr ⟨hinv.curNC, hnc⟩, ?_, ?_, hsum,
    hinv.countEq, hinv.totalLe⟩
  · show wcswidth (st.cur ++ pc) ≤ st.curW + d
    rw [wcswidth_append_noCtrl hinv.curNC hnc]
    omega
  · show (0 : Int) ≤ st.curW + d
    omega

theorem add_word_rest_inv (max_width : Nat) (ml : MaxLines) (ilw : Bool)
    (word : List Tok) (st : WrapSt)
    (h1 : 1 ≤ max_width) (hw : noCtrl word)
    (hinv : WrapInv max_width ml st)
    (hpre : ¬ (mlEq st.total ml = true ∧ st.curW = (max_width : Int)))
    (hcase : wcswidth word ≤ (max_width : Int) ∨ mlEq st.total ml = true) :
    WrapInv max_width ml (add_word_rest max_width ml ilw word (wcswidth word) st) := by
  have hww0 : 0 ≤ wcswidth word := wcswidth_nonneg hw
  have h1i : (1 : Int) ≤ (max_width : Int) := by exact_mod_cast h1
  have hcwle := hinv.curWle
  have hcnn := hinv.curNN
  have hpreC : mlEq st.total ml = true → st.curW < (max_width : Int) :=
    fun h => lt_of_le_of_ne hcwle (fun he => hpre ⟨h, he⟩)
  have hwrite : ∀ (wd : List Tok) (ww2 : Int), noCtrl wd → wcswidth wd = ww2 →
      0 ≤ ww2 → ((max_width : Int) - st.curW < ww2 → 1 ≤ (max_width : Int) - st.curW) →
      WrapInv max_width ml
        (if ((max_width : Int) - st.curW) < ww2 then
           ⟨st.lines, st.cur ++ truncate_line wd ((max_width : Int) - st.curW).toNat,
            st.total, st.curW + ((max_width : Int) - st.curW)⟩
         else if (¬ ilw = true) ∧ mlEq st.total ml = true ∧
             ww2 = (max_width : Int) - st.curW then
           ⟨st.lines,
            st.cur ++ truncate_line (wd ++ extraToks) ((max_width : Int) - st.curW).toNat,
            st.total, st.curW + ww2⟩
         else ⟨st.lines, st.cur ++ wd, st.total, st.curW + ww2⟩) := by
    intro wd ww2 hwdnc hwdw hww2nn hrem1
    by_cases hrw : (max_width : Int) - st.curW < ww2
    · rw [if_pos hrw]
      have hr1 : 1 ≤ (max_width : Int) - st.curW := hrem1 hrw
      have hr1n : 1 ≤ ((max_width : Int) - st.curW).toNat := by omega
      have htl := truncate_line_le wd ((max_width : Int) - st.curW).toNat hr1n
      rw [Int.toNat_of_nonneg (by omega)] at htl
      exact wrapinv_extend hinv _ _ (truncate_line_noCtrl _ hwdnc) htl (by omega) (by omega)
    · rw [if_neg hrw]
      by_cases hex : (¬ ilw = true) ∧ mlEq st.total ml = true ∧
          ww2 = (max_width : Int) - st.curW
      · rw [if_pos hex]
        have hcwlt := hpreC hex.2.1
        have hr1n : 1 ≤ ((max_width : Int) - st.curW).toNat := by omega
        have htl := truncate_line_le (wd ++ extraToks)
          ((max_width : Int) - st.curW).toNat hr1n
        rw [Int.toNat_of_nonneg (by omega)] at htl
        refine wrapinv_extend hinv _ ww2
          (truncate_line_noCtrl _ (noCtrl_append.mpr ⟨hwdnc, noCtrl_extraToks⟩))
          ?_ hww2nn ?_
        · rw [hex.2.2]
          exact htl
        · rw [hex.2.2]
          omega
      · rw [if_neg hex]
        exact wrapinv_extend hinv wd ww2 hwdnc (le_of_eq hwdw) hww2nn (by omega)
  simp only [add_word_rest]
  by_cases hc1 : 0 < st.curW ∧ 0 < wcswidth word
  · by_cases hc2 : wcswidth word < (max_width : Int) - st.curW ∨ mlEq st.total ml = true
    · rw [if_pos hc1, if_pos hc2]
      have hspw : wcswidth (spaceTok :: word) = wcswidth word + 1 := by
        rw [show spaceTok :: word = [spaceTok] ++ word from rfl,
          wcswidth_append_noCtrl (noCtrl_singleton (t := spaceTok) rfl) hw, wcswidth_space]
        omega
      have hrem1A : (max_width : Int) - st.curW < wcswidth word + 1 →
          1 ≤ (max_width : Int) - st.curW := by
        intro hlt2
        rcases hc2 with h | h
        · omega
        · have := hpreC h
          omega
      exact hwrite (spaceTok :: word) (wcswidth word + 1)
        (noCtrl_cons.mpr ⟨rfl, hw⟩) hspw (by omega) hrem1A
    · rw [if_pos hc1, if_neg hc2]
      have hwwle : wcswidth word ≤ (max_width : Int) :=
        hcase.resolve_right (fun h => hc2 (Or.inr h))
      have hnemlEq : ¬ mlEq st.total ml = true := fun h => hc2 (Or.inr h)
      have hcounteq := hinv.countEq
      show WrapInv max_width ml
        ⟨st.lines ++ [st.cur], word, st.total + 1, wcswidth word⟩
      refine ⟨linesOk_append hinv.linesOk hinv.curLe hinv.curWle, hw, le_refl _,
        wcswidth_nonneg hw, hwwle, ?_, mlLe_succ_of_ne hinv.totalLe hnemlEq⟩
      show (st.lines ++ [st.cur]).length + 1 = st.total + 1
      simp only [List.length_append, List.length_cons, List.length_nil]
      omega
  · rw [if_neg hc1]
    have hrem1C : (max_width : Int) - st.curW < wcswidth word →
        1 ≤ (max_width : Int) - st.curW := by
      intro hlt2
      rcases not_and_or.mp hc1 with h | h
      · have h0 : st.curW = 0 := by omega
        omega
      · have h0 : wcswidth word = 0 := by omega
        omega
    exact hwrite word (wcswidth word) hw rfl hww0 hrem1C

theorem add_word_inv (max_width : Nat) (ml : MaxLines) (ilw : Bool)
    (word : List Tok) (st : WrapSt)
    (h1 : 1 ≤ max_width) (hw : noCtrl word) (hinv : WrapInv max_width ml st)
    (hpre : ¬ (mlEq st.total ml = true ∧ st.curW = (max_width : Int))) :
    WrapInv max_width ml (add_word max_width ml ilw word st) := by
  have hzero : wcswidth ([] : List Tok) ≤ 0 := le_of_eq wcswidth_nil
  simp only [add_word]
  by_cases hbig : (max_width : Int) < wcswidth word
  · rw [if_pos hbig]
    by_cases hcur : 0 < st.curW
    · rw [if_pos hcur]
      by_cases hlt : mlLt st.total ml = true
      · rw [if_pos hlt]
        refine write_wrapped_inv max_width ml st.newline _
          (linesOk_append hinv.linesOk hinv.curLe hinv.curWle) noCtrl_nil hzero ?_
          (mlLe_of_lt hlt) ?_
        · simp only [WrapSt.newline, List.length_append, List.length_cons, List.length_nil]
          have := hinv.countEq
          omega
        · exact wlw_go_inv max_width (mlSub ml st.newline.total) ilw h1 word [] [] 1 0
            hw (by intro l hl; exact absurd hl (List.not_mem_nil l)) noCtrl_nil
            hzero (le_refl 0) (by exact_mod_cast Nat.zero_le max_width) rfl
            (mlLe_one_mlSub ml st.newline.total) (fun _ => ⟨rfl, rfl⟩)
      · rw [if_neg hlt]
        exact add_word_rest_inv max_width ml ilw word st h1 hw hinv hpre
          (Or.inr (mlEq_of_le_not_lt hinv.totalLe hlt))
    · rw [if_neg hcur]
      have hc0 : wcswidth st.cur ≤ 0 := by
        have := hinv.curLe
        have := hinv.curNN
        omega
      exact write_wrapped_inv max_width ml st _ hinv.linesOk hinv.curNC hc0
        hinv.countEq hinv.totalLe
        (wlw_go_inv max_width (mlSub ml st.total) ilw h1 word [] [] 1 0
          hw (by intro l hl; exact absurd hl (List.not_mem_nil l)) noCtrl_nil
          hzero (le_refl 0) (by exact_mod_cast Nat.zero_le max_width) rfl
          (mlLe_one_mlSub ml st.total) (fun _ => ⟨rfl, rfl⟩))
  · rw [if_neg hbig]
    exact add_word_rest_inv max_width ml ilw word st h1 hw hinv hpre
      (Or.inl (le_of_not_lt hbig))

theorem split_lines_nil : split_lines [] = [] := rfl

theorem split_lines_ctrl (c : Char) (rest : List Tok) :
    split_lines (Tok.ctrl c :: rest) =
      if c = '\n' then [] :: split_lines rest
      else match split_lines rest with
        | [] => [[Tok.ctrl c]]
        | l :: ls => (Tok.ctrl c :: l) :: ls := rfl

theorem split_lines_chr (c : Char) (w : Nat) (rest : List Tok) :
    split_lines (Tok.chr c w :: rest) =
      match split_lines rest with
      | [] => [[Tok.chr c w]]
      | l :: ls => (Tok.chr c w :: l) :: ls := rfl

theorem split_lines_style (sq : List Char) (rest : List Tok) :
    split_lines (Tok.style sq :: rest) =
      match split_lines rest with
      | [] => [[Tok.style sq]]
      | l :: ls => (Tok.style sq :: l) :: ls := rfl

theorem split_lines_wf (ts : List Tok) (h : WfText ts) :
    ∀ dl ∈ split_lines ts, noCtrl dl ∧ ∀ t ∈ dl, WfTok t := by
  induction ts with
  | nil =>
    intro dl hdl
    rw [split_lines_nil] at hdl
    exact absurd hdl (List.not_mem_nil dl)
  | cons t rest ih =>
    have hx : WfTok t := h t (List.mem_cons_self t rest)
    have hrest : WfText rest := fun x hx2 => h x (List.mem_cons_of_mem t hx2)
    have ih' := ih hrest
    have hcons : ∀ (u : Tok), u.isCtrl = false → WfTok u →
        ∀ dl ∈ (match split_lines rest with
                 | [] => [[u]]
                 | l :: ls => (u :: l) :: ls : List (List Tok)),
          noCtrl dl ∧ ∀ x ∈ dl, WfTok x := by
      intro u hunc huwf
      cases hsp : split_lines rest with
      | nil =>
        intro dl hdl
        rcases List.mem_cons.mp hdl with rfl | hdl
        · refine ⟨noCtrl_singleton hunc, ?_⟩
          intro x hx2
          rw [List.mem_singleton.mp hx2]
          exact huwf
        · exact absurd hdl (List.not_mem_nil dl)
      | cons l ls =>
        intro dl hdl
        have hl := ih' l (by rw [hsp]; exact List.mem_cons_self l ls)
        rcases List.mem_cons.mp hdl with rfl | hdl
        · refine ⟨noCtrl_cons.mpr ⟨hunc, hl.1⟩, ?_⟩
          intro x hx2
          rcases List.mem_cons.mp hx2 with rfl | hx2
          · exact huwf
          · exact hl.2 x hx2
        · exact ih' dl (by rw [hsp]; exact List.mem_cons_of_mem l hdl)
    cases t with
    | ctrl c =>
      have hc : c = '\n' := hx
      rw [split_lines_ctrl, if_pos hc]
      intro dl hdl
      rcases List.mem_cons.mp hdl with rfl | hdl
      · exact ⟨noCtrl_nil, fun x hx2 => absurd hx2 (List.not_mem_nil x)⟩
      · exact ih' dl hdl
    | chr c w =>
      rw [split_lines_chr]
      exact hcons (Tok.chr c w) rfl hx
    | style sq =>
      rw [split_lines_style]
      exact hcons (Tok.style sq) rfl hx

theorem line_go_nil (max_width : Nat) (ml : MaxLines) (ild : Bool) (llen : Nat)
    (ci : Nat) (wbuf : List Tok) (st : WrapSt) :
    line_go max_width ml ild llen [] ci wbuf st = (st, wbuf, ci) := rfl

theorem line_go_cons_style (max_width : Nat) (ml : MaxLines) (ild : Bool) (llen : Nat)
    (sq : List Char) (rest : List Tok) (ci : Nat) (wbuf : List Tok) (st : WrapSt) :
    line_go max_width ml ild llen (Tok.style sq :: rest) ci wbuf st =
      if mlEq st.total ml ∧ st.curW = (max_width : Int) then (st, wbuf, ci)
      else line_go max_width ml ild llen rest (ci + sq.length)
             (wbuf ++ [Tok.style sq]) st := rfl

theorem line_go_cons_chr (max_width : Nat) (ml : MaxLines) (ild : Bool) (llen : Nat)
    (c : Char) (w : Nat) (rest : List Tok) (ci : Nat) (wbuf : List Tok) (st : WrapSt) :
    line_go max_width ml ild llen (Tok.chr c w :: rest) ci wbuf st =
      if mlEq st.total ml ∧ st.curW = (max_width : Int) then (st, wbuf, ci)
      else
        if (Tok.chr c w).isSpace then
          if wbuf ≠ [] then
            line_go max_width ml ild llen rest (ci + 1) []
              (add_word max_width ml (ild ∧ ci + 1 = llen - 1) wbuf st)
          else
            line_go max_width ml ild llen rest (ci + 1) []
              { (if (max_width : Int) < wcswidth [Tok.chr c w] + st.curW
                 then st.newline else st) with
                cur := (if (max_width : Int) < wcswidth [Tok.chr c w] + st.curW
                        then st.newline else st).cur ++ [Tok.chr c w],
                curW := (if (max_width : Int) < wcswidth [Tok.chr c w] + st.curW
                         then st.newline else st).curW + wcswidth [Tok.chr c w] }
        else line_go max_width ml ild llen rest (ci + 1) (wbuf ++ [Tok.chr c w]) st := rfl

theorem line_go_inv (max_width : Nat) (ml : MaxLines) (ild : Bool) (llen : Nat)
    (h1 : 1 ≤ max_width) :
    ∀ (rest : List Tok) (ci : Nat) (wbuf : List Tok) (st : WrapSt),
    noCtrl rest → (∀ t ∈ rest, WfTok t) → noCtrl wbuf →
    WrapInv max_width ml st →
    ((mlEq st.total ml = true ∧ st.curW = (max_width : Int)) → wbuf = []) →
    WrapInv max_width ml (line_go max_width ml ild llen rest ci wbuf st).1 ∧
    noCtrl (line_go max_width ml ild llen rest ci wbuf st).2.1 ∧
    ((mlEq (line_go max_width ml ild llen rest ci wbuf st).1.total ml = true ∧
        (line_go max_width ml ild llen rest ci wbuf st).1.curW = (max_width : Int)) →
      (line_go max_width ml ild llen rest ci wbuf st).2.1 = []) := by
  intro rest
  induction rest with
  | nil =>
    intro ci wbuf st hnc hwf hbnc hinv hbrk
    rw [line_go_nil]
    exact ⟨hinv, hbnc, hbrk⟩
  | cons t rest ih =>
    intro ci wbuf st hnc hwf hbnc hinv hbrk
    have hnc' : noCtrl rest := (noCtrl_cons.mp hnc).2
    have htnc : t.isCtrl = false := (noCtrl_cons.mp hnc).1
    have hwf' : ∀ x ∈ rest, WfTok x := fun x hx => hwf x (List.mem_cons_of_mem t hx)
    have htwf : WfTok t := hwf t (List.mem_cons_self t rest)
    cases t with
    | ctrl c => simp [Tok.isCtrl] at htnc
    | style sq =>
      rw [line_go_cons_style]
      by_cases hbr : mlEq st.total ml = true ∧ st.curW = (max_width : Int)
      · rw [if_pos hbr]
        exact ⟨hinv, hbnc, hbrk⟩
      · rw [if_neg hbr]
        exact ih (ci + sq.length) (wbuf ++ [Tok.style sq]) st hnc' hwf'
          (noCtrl_append.mpr ⟨hbnc, noCtrl_singleton (t := Tok.style sq) rfl⟩) hinv
          (fun h => absurd h hbr)
    | chr c w =>
      rw [line_go_cons_chr]
      by_cases hbr : mlEq st.total ml = true ∧ st.curW = (max_width : Int)
      · rw [if_pos hbr]
        exact ⟨hinv, hbnc, hbrk⟩
      · rw [if_neg hbr]
        by_cases hsp : (Tok.chr c w).isSpace = true
        · rw [if_pos hsp]
          have hc : c = ' ' := by
            simpa [Tok.isSpace] using hsp
          have hw1 : w = 1 := htwf.2 hc
          by_cases hbuf : wbuf ≠ []
          · rw [if_pos hbuf]
            exact ih (ci + 1) [] _ hnc' hwf' noCtrl_nil
              (add_word_inv max_width ml _ wbuf st h1 hbnc hinv hbr) (fun _ => rfl)
          · rw [if_neg hbuf]
            have hwc : wcswidth [Tok.chr c w] = 1 := by
              subst hc
              subst hw1
              exact wcswidth_space
            refine ih (ci + 1) [] _ hnc' hwf' noCtrl_nil ?_ (fun _ => rfl)
            by_cases hnl : (max_width : Int) < wcswidth [Tok.chr c w] + st.curW
            · simp only [if_pos hnl]
              show WrapInv max_width ml
                ⟨st.lines ++ [st.cur], [] ++ [Tok.chr c w], st.total + 1,
                 0 + wcswidth [Tok.chr c w]⟩
              have hne : ¬ mlEq st.total ml = true := by
                intro hmleq
                have hlt : st.curW < (max_width : Int) :=
                  lt_of_le_of_ne hinv.curWle (fun he => hbr ⟨hmleq, he⟩)
                rw [hwc] at hnl
                omega
              have hcountEq := hinv.countEq
              have h1i : (1 : Int) ≤ (max_width : Int) := by exact_mod_cast h1
              refine ⟨linesOk_append hinv.linesOk hinv.curLe hinv.curWle,
                noCtrl_singleton htnc, ?_, ?_, ?_, ?_,
                mlLe_succ_of_ne hinv.totalLe hne⟩
              · show wcswidth ([] ++ [Tok.chr c w]) ≤ 0 + wcswidth [Tok.chr c w]
                simp
              · show (0 : Int) ≤ 0 + wcswidth [Tok.chr c w]
                rw [hwc]
                omega
              · show 0 + wcswidth [Tok.chr c w] ≤ (max_width : Int)
                rw [hwc]
                omega
              · show (st.lines ++ [st.cur]).length + 1 = st.total + 1
                simp only [List.length_append, List.length_cons, List.length_nil]
                omega
            · simp only [if_neg hnl]
              show WrapInv max_width ml
                ⟨st.lines, st.cur ++ [Tok.chr c w], st.total,
                 st.curW + wcswidth [Tok.chr c w]⟩
              exact wrapinv_extend hinv [Tok.chr c w] (wcswidth [Tok.chr c w])
                (noCtrl_singleton htnc) (le_refl _) (by rw [hwc]; omega)
                (by rw [hwc] at hnl ⊢; omega)
        · rw [if_neg hsp]
          exact ih (ci + 1) (wbuf ++ [Tok.chr c w]) st hnc' hwf'
            (noCtrl_append.mpr ⟨hbnc, noCtrl_singleton htnc⟩) hinv
            (fun h => absurd h hbr)

theorem wt_step_inv (max_width : Nat) (ml : MaxLines) (h1 : 1 ≤ max_width)
    (ild : Bool) (dl : List Tok) (st : WrapSt)
    (hnc : noCtrl dl) (hwf : ∀ t ∈ dl, WfTok t)
    (hinv : WrapInv max_width ml st) :
    WrapInv max_width ml (wt_step max_width ml ild dl st) := by
  obtain ⟨ri, rnc, rbrk⟩ := line_go_inv max_width ml ild (clen dl) h1 dl 0 [] st
    hnc hwf noCtrl_nil hinv (fun _ => rfl)
  simp only [wt_step]
  by_cases hb : (line_go max_width ml ild (clen dl) dl 0 [] st).2.1 ≠ []
  · rw [if_pos hb]
    exact add_word_inv max_width ml _ _ _ h1 rnc ri (fun hx => hb (rbrk hx))
  · rw [if_neg hb]
    exact ri

theorem wt_go_inv (max_width : Nat) (ml : MaxLines) (h1 : 1 ≤ max_width) :
    ∀ (rest : List (List Tok)) (dl : List Tok) (st : WrapSt),
    (noCtrl dl ∧ ∀ t ∈ dl, WfTok t) →
    (∀ dl2 ∈ rest, noCtrl dl2 ∧ ∀ t ∈ dl2, WfTok t) →
    st.cur = [] → st.curW = 0 →
    (∀ l ∈ st.lines, wcswidth l ≤ (max_width : Int)) →
    st.lines.length = st.total →
    mlLe (st.total + 1) ml →
    WrapInv max_width ml (wt_go max_width ml dl rest st) := by
  intro rest
  induction rest with
  | nil =>
    intro dl st hdl _ hcur hcurW hlines hcount htot
    have hinv1 : WrapInv max_width ml ⟨st.lines, st.cur, st.total + 1, st.curW⟩ := by
      rw [hcur, hcurW]
      exact ⟨hlines, noCtrl_nil, le_of_eq wcswidth_nil, le_refl 0,
        Int.natCast_nonneg _, by simpa using hcount, htot⟩
    have hinv2 := wt_step_inv max_width ml h1 (decide True) dl
      { st with total := st.total + 1 } hdl.1 hdl.2 hinv1
    simp only [wt_go]
    by_cases heq : mlEq (wt_step max_width ml (decide True) dl
        { st with total := st.total + 1 }).total ml = true
    · rw [if_pos heq, if_neg (fun hx => hx.1 rfl)]
      exact hinv2
    · rw [if_neg heq]
      exact hinv2
  | cons dl2 rest2 ih =>
    intro dl st hdl hrest hcur hcurW hlines hcount htot
    have hinv1 : WrapInv max_width ml ⟨st.lines, st.cur, st.total + 1, st.curW⟩ := by
      rw [hcur, hcurW]
      exact ⟨hlines, noCtrl_nil, le_of_eq wcswidth_nil, le_refl 0,
        Int.natCast_nonneg _, by simpa using hcount, htot⟩
    have hinv2 := wt_step_inv max_width ml h1
      (decide (dl2 :: rest2 = ([] : List (List Tok)))) dl
      { st with total := st.total + 1 } hdl.1 hdl.2 hinv1
    simp only [wt_go]
    by_cases heq : mlEq (wt_step max_width ml
        (decide (dl2 :: rest2 = ([] : List (List Tok)))) dl
        { st with total := st.total + 1 }).total ml = true
    · rw [if_pos heq]
      by_cases hell : dl2 :: rest2 ≠ ([] : List (List Tok)) ∧
          (wt_step max_width ml (decide (dl2 :: rest2 = ([] : List (List Tok)))) dl
            { st with total := st.total + 1 }).curW < (max_width : Int)
      · rw [if_pos hell]
        exact wrapinv_extend hinv2 [ellipsisTok] 1 noCtrl_ell (le_of_eq wcswidth_ell)
          (by omega) (by have := hell.2; omega)
      · rw [if_neg hell]
        exact hinv2
    · rw [if_neg heq]
      refine ih dl2 _ (hrest dl2 (List.mem_cons_self dl2 rest2))
        (fun d hd => hrest d (List.mem_cons_of_mem dl2 hd)) rfl rfl
        (linesOk_append hinv2.linesOk hinv2.curLe hinv2.curWle) ?_
        (mlLe_succ_of_ne hinv2.totalLe heq)
      show ((wt_step max_width ml _ dl _).lines ++ [(wt_step max_width ml _ dl _).cur]).length
        = (wt_step max_width ml _ dl _).total
      simp only [List.length_append, List.length_cons, List.length_nil]
      have := hinv2.countEq
      omega

theorem str_lines_sub (b : List (List Tok)) : ∀ l ∈ str_lines b, l ∈ b := by
  intro l hl
  unfold str_lines at hl
  split at hl
  · exact List.dropLast_subset b hl
  · exact hl

theorem str_lines_length_le (b : List (List Tok)) : (str_lines b).length ≤ b.length := by
  unfold str_lines
  split
  · rw [List.length_dropLast]
    omega
  · exact le_refl _

theorem WfText_plain (s : String) (h : '\n' ∉ s.data) : WfText (plain s) := by
  intro t ht
  rcases List.mem_map.mp ht with ⟨c, hc, rfl⟩
  exact ⟨fun he => h (he ▸ hc), fun _ => rfl⟩

/-- C1: for every input text (well-formed per `WfTok`: the only control
character is the line break `'\n'`, and a space character has display
width 1), every `max_width ≥ 1` and every finite `max_lines ≥ 1`, the
string returned by `_wrap_text` consists of newline-joined lines each of
display width at most `max_width` (style sequences counting zero, per
`wcswidth`), and the number of lines is at most `max_lines`. -/
theorem wrap_text_width_and_line_bounds (text : List Tok) (max_width max_lines : Nat)
    (h1 : 1 ≤ max_width) (h2 : 1 ≤ max_lines) (hwf : WfText text) :
    (∀ l ∈ str_lines (wrap_text text max_width (some max_lines)),
        wcswidth l ≤ (max_width : Int)) ∧
    (str_lines (wrap_text text max_width (some max_lines))).length ≤ max_lines := by
  have hwfl := split_lines_wf text hwf
  unfold wrap_text
  cases hsp : split_lines text with
  | nil =>
    constructor
    · intro l hl
      rw [show str_lines [[]] = ([] : List (List Tok)) from rfl] at hl
      exact absurd hl (List.not_mem_nil l)
    · rw [show str_lines [[]] = ([] : List (List Tok)) from rfl]
      simp
  | cons dl rest =>
    rw [hsp] at hwfl
    have hfinal := wt_go_inv max_width (some max_lines) h1 rest dl ⟨[], [], 0, 0⟩
      (hwfl dl (List.mem_cons_self dl rest))
      (fun d hd => hwfl d (List.mem_cons_of_mem dl hd)) rfl rfl
      (fun l hl => absurd hl (List.not_mem_nil l)) rfl
      (by simp [mlLe]; omega)
    have htotle : (wt_go max_width (some max_lines) dl rest ⟨[], [], 0, 0⟩).total
        ≤ max_lines := hfinal.totalLe
    have hcount := hfinal.countEq
    constructor
    · intro l hl
      have hl2 := str_lines_sub _ l hl
      rcases List.mem_append.mp hl2 with h | h
      · exact hfinal.linesOk l h
      · rw [List.mem_singleton.mp h]
        have hle := hfinal.curLe
        have hwle := hfinal.curWle
        omega
    · show (str_lines ((wt_go max_width (some max_lines) dl rest ⟨[], [], 0, 0⟩).lines ++
          [(wt_go max_width (some max_lines) dl rest ⟨[], [], 0, 0⟩).cur])).length ≤ max_lines
      have hlen := str_lines_length_le
        ((wt_go max_width (some max_lines) dl rest ⟨[], [], 0, 0⟩).lines ++
          [(wt_go max_width (some max_lines) dl rest ⟨[], [], 0, 0⟩).cur])
      simp only [List.length_append, List.length_cons, List.length_nil] at hlen
      omega

/-- C1 witness: the bounds at `"ab cd"`, `max_width = 5`,
`max_lines = 1`. -/
theorem wrap_text_width_and_line_bounds_witness :
    1 ≤ 5 ∧ (str_lines (wrap_text (plain "ab cd") 5 (some 1))).length ≤ 1 :=
  ⟨by decide,
   (wrap_text_width_and_line_bounds (plain "ab cd") 5 1 (by decide) (by decide)
      (WfText_plain "ab cd" (by decide))).2⟩

/-- C8: with matching arity (and no tabs, whose replacement C10 covers),
`_generate_row` raises `TypeError` when the fill character is not
exactly one character after style sequences are stripped, and otherwise
raises `ValueError` for whichever of `fill_char`, `pre_line`,
`inter_cell`, `post_line` (checked in that order) has display width
reported as the `-1` sentinel.  The error does not depend on the cell
data: the validations run before any cell is rendered. -/
theorem generate_row_decoration_validation (tc : TableCreator) (data : List (List Tok))
    (is_header : Bool) (fill_char pre_line inter_cell post_line : List Tok)
    (harity : tc.cols.length = data.length)
    (hf : noTab fill_char) (hp : noTab pre_line) (hi : noTab inter_cell)
    (hq : noTab post_line) :
    ((strip_style fill_char).length ≠ 1 →
       generate_row tc data is_header fill_char pre_line inter_cell post_line =
         .error (.typeError "Fill character must be exactly one character long")) ∧
    ((strip_style fill_char).length = 1 → wcswidth fill_char = -1 →
       generate_row tc data is_header fill_char pre_line inter_cell post_line =
         .error (.valueError "fill_char contains an unprintable character")) ∧
    ((strip_style fill_char).length = 1 → wcswidth fill_char ≠ -1 → wcswidth pre_line = -1 →
       generate_row tc data is_header fill_char pre_line inter_cell post_line =
         .error (.valueError "pre_line contains an unprintable character")) ∧
    ((strip_style fill_char).length = 1 → wcswidth fill_char ≠ -1 → wcswidth pre_line ≠ -1 →
       wcswidth inter_cell = -1 →
       generate_row tc data is_header fill_char pre_line inter_cell post_line =
         .error (.valueError "inter_cell contains an unprintable character")) ∧
    ((strip_style fill_char).length = 1 → wcswidth fill_char ≠ -1 → wcswidth pre_line ≠ -1 →
       wcswidth inter_cell ≠ -1 → wcswidth post_line = -1 →
       generate_row tc data is_header fill_char pre_line inter_cell post_line =
         .error (.valueError "post_line contains an unprintable character")) := by
  have e1 : tab_to_space fill_char = fill_char := tab_to_space_noTab hf
  have e2 : tab_expand tc.tab_width pre_line = pre_line := tab_expand_noTab hp
  have e3 : tab_expand tc.tab_width inter_cell = inter_cell := tab_expand_noTab hi
  have e4 : tab_expand tc.tab_width post_line = post_line := tab_expand_noTab hq
  have hne : ¬ (tc.cols.length ≠ data.length) := fun h => h harity
  refine ⟨fun h1 => ?_, fun h1 h2 => ?_, fun h1 h2 h3 => ?_, fun h1 h2 h3 h4 => ?_,
          fun h1 h2 h3 h4 h5 => ?_⟩ <;>
    simp only [generate_row, if_neg hne, e1, e2, e3, e4]
  · rw [if_pos h1]
  · rw [if_neg (fun hc => hc h1), if_pos h2]
  · rw [if_neg (fun hc => hc h1), if_neg h2, if_pos h3]
  · rw [if_neg (fun hc => hc h1), if_neg h2, if_neg h3, if_pos h4]
  · rw [if_neg (fun hc => hc h1), if_neg h2, if_neg h3, if_neg h4, if_pos h5]

/-- C8 witness: a two-character fill raises the `TypeError`; a newline
`pre_line` raises the `ValueError`, against the same 2-column table. -/
theorem generate_row_decoration_validation_witness :
    generate_data_row tbl_two_headers [plain "a", plain "b"] (plain "xy") =
      .error (.typeError "Fill character must be exactly one character long") ∧
    generate_data_row tbl_two_headers [plain "a", plain "b"] [spaceTok] [Tok.ctrl '\n'] =
      .error (.valueError "pre_line contains an unprintable character") :=
  ⟨(generate_row_decoration_validation tbl_two_headers [plain "a", plain "b"] false
      (plain "xy") [] [spaceTok, spaceTok] [] (by decide) (by decide) (by decide)
      (by decide) (by decide)).1 (by decide),
   (generate_row_decoration_validation tbl_two_headers [plain "a", plain "b"] false
      [spaceTok] [Tok.ctrl '\n'] [spaceTok, spaceTok] [] (by decide) (by decide) (by decide)
      (by decide) (by decide)).2.2.1 (by decide) (by decide) (by decide)⟩

end Cmd2Table
